import Mathlib

/-!
Shallow embedding of `scripts/bump_version.py` (the ortho-config release
helper).  The script edits TOML manifests through `tomlkit` and Markdown
documents through `markdown-it-py`.

Modelling conventions:

* Text is `List Char`; Python strings become char lists.
* A parsed TOML document (`tomlkit` document / table) is an ordered
  association list `Fields`.  Keys are unique in documents produced by a
  parser, but no lemma below relies on that: `lookup` returns the first
  binding and `setKey` rewrites the first binding, matching `dict`
  semantics.
* `tomlkit` values that the script can meet in a dependency table are
  strings, booleans, arrays (of strings, e.g. feature lists) and
  sub-tables.  Formatting trivia (quote style, comments, whitespace) is
  not modelled, so the two Python branches "mutate the existing
  `tomlkit.items.String` in place" and "assign a fresh `str`" coincide:
  both set the binding to the new string value.
* Fallible Python code (expressions that can raise, such as `x[k]` on a
  non-mapping or `k in b` on a bool) is modelled in `Except Unit`.
-/

abbrev Key := List Char

inductive Item where
  | str (s : List Char)
  | bool (b : Bool)
  | arr (xs : List (List Char))
  | table (fields : List (Key × Item))

abbrev Fields := List (Key × Item)

/-- Top-level TOML document: an ordered mapping, as in `tomlkit.parse`. -/
abbrev Doc := Fields

/-- First-binding association lookup; models `Mapping.get` / `dict.get`. -/
def lookup : Fields → Key → Option Item
  | [], _ => none
  | (k', v') :: rest, k => if k' = k then some v' else lookup rest k

/-- Models `container[key] = value`: replace the first binding of `key`
in place, else append a new binding (insertion order, as `dict`). -/
def setKey : Fields → Key → Item → Fields
  | [], k, v => [(k, v)]
  | (k', v') :: rest, k, v =>
    if k' = k then (k', v) :: rest else (k', v') :: setKey rest k v

/-- Python truthiness of the modelled `tomlkit` values. -/
def truthy : Item → Bool
  | .str s => !s.isEmpty
  | .bool b => b
  | .arr xs => !xs.isEmpty
  | .table fs => !fs.isEmpty

/-- Truthiness of an optional value (`None` is falsy). -/
def truthyOpt : Option Item → Bool
  | none => false
  | some it => truthy it

mutual

/-- Model of Python `str()` on a `tomlkit` value.  Only the first
character ever matters to the script (`_extract_version_prefix` checks
whether it is `^` or `~`); arrays render starting with `[`, tables with
an opening brace and booleans with `T`/`F`, exactly as their `tomlkit`
renderings never start with `^` or `~`. -/
def pyStr : Item → List Char
  | .str s => s
  | .bool b => if b then ("True").toList else ("False").toList
  | .arr xs => '[' :: (xs.map (fun x => '"' :: x ++ ['"'])).flatten ++ [']']
  | .table fs => '\x7b' :: pyStrFields fs ++ ['\x7d']

def pyStrFields : List (Key × Item) → List Char
  | [] => []
  | (k, v) :: rest =>
    k ++ (" = ").toList ++ pyStr v ++
      (if rest.isEmpty then [] else (", ").toList) ++ pyStrFields rest

end

/-- Model of `entry.value if isinstance(entry, tomlkit.items.String) else
str(entry or "")` (line 172 of `bump_version.py`). -/
def pyEntryText : Option Item → List Char
  | some (.str s) => s
  | none => []
  | some it => if truthy it then pyStr it else []

/-- Leading constraint marker of a version text: its first character when
that is `^` or `~`, else empty (line 173). -/
def prefixOfText (s : List Char) : List Char :=
  match s with
  | [] => []
  | c :: _ => if c = '^' ∨ c = '~' then [c] else []

def wsKey : Key := ("workspace").toList
def verKey : Key := ("version").toList

/-- Embeds `_extract_version_prefix` (lines 156-173): a mapping entry is
first replaced by its `version` sub-entry, then the constraint marker of
the resulting text is returned. -/
def extract_version_prefix (entry : Option Item) : List Char :=
  let entry2 : Option Item :=
    match entry with
    | some (.table fs) => lookup fs verKey
    | e => e
  prefixOfText (pyEntryText entry2)

/-- Embeds `_update_dict_dependency` (lines 176-201).  A truthy
`workspace` marker short-circuits; otherwise the `version` binding is set
to the old constraint marker followed by the new version.  (The Python
`isinstance(existing, tomlkit.items.String)` split only chooses between
in-place mutation and assignment, which coincide in this model.) -/
def update_dict_dependency (entry : Fields) (version : List Char) : Fields :=
  if truthyOpt (lookup entry wsKey) then entry
  else
    let p := extract_version_prefix (some (.table entry))
    setKey entry verKey (.str (p ++ version))

/-- Embeds `_update_string_dependency` (lines 204-227): the binding of
`dependency` is set to the old constraint marker followed by the new
version. -/
def update_string_dependency (deps : Fields) (dependency : Key) (entry : Item)
    (version : List Char) : Fields :=
  let p := extract_version_prefix (some entry)
  setKey deps dependency (.str (p ++ version))

/-- Embeds `_update_dependency_in_table` (lines 230-250).  Both call
sites check `dependency in deps` first, so the `none` branch is
unreachable; it returns `deps` unchanged. -/
def update_dependency_in_table (deps : Fields) (dependency : Key)
    (version : List Char) : Fields :=
  match lookup deps dependency with
  | some (.table efs) =>
    setKey deps dependency (.table (update_dict_dependency efs version))
  | some e => update_string_dependency deps dependency e version
  | none => deps

/-- Model of Python `needle in container` for the values a dependency
table slot can hold: key membership for mappings, substring test for
strings, element membership for arrays, `TypeError` for booleans. -/
def findSub : List Char → List Char → Option Nat
  | s, pat =>
    match s with
    | [] => if pat = [] then some 0 else none
    | _ :: rest =>
      if pat.isPrefixOf s then some 0 else (findSub rest pat).map (· + 1)

def pyContains (needle : Key) : Item → Except Unit Bool
  | .table fs => .ok (lookup fs needle).isSome
  | .str s => .ok (findSub s needle).isSome
  | .arr xs => .ok (xs.contains needle)
  | .bool _ => .error ()

def tableNames : List Key :=
  [("dependencies").toList, ("dev-dependencies").toList,
   ("build-dependencies").toList]

/-- One iteration of the loop in `_update_dependency_version`
(lines 284-288): `deps = doc.get(table)`, skip when `not deps or
dependency not in deps`, else update the table in place (`deps[dep]` on a
non-mapping would raise `TypeError`). -/
def updateDepStep (dependency version : List Char) (doc : Doc) (t : Key) :
    Except Unit Doc :=
  match lookup doc t with
  | none => .ok doc
  | some deps =>
    if truthy deps = false then .ok doc
    else
      match pyContains dependency deps with
      | .error e => .error e
      | .ok false => .ok doc
      | .ok true =>
        match deps with
        | .table fs =>
          .ok (setKey doc t (.table (update_dependency_in_table fs dependency version)))
        | _ => .error ()

/-- Embeds `_update_dependency_version` (lines 253-288): fold the
per-table step over the three dependency tables in their fixed order. -/
def update_dependency_version (doc : Doc) (dependency version : List Char) :
    Except Unit Doc :=
  tableNames.foldlM (updateDepStep dependency version) doc

/-- Serialization model standing in for `tomlkit.dumps`: with formatting
trivia outside the model, a document renders canonically. -/
def dumpsFields : Fields → List Char
  | [] => []
  | (k, v) :: rest => k ++ (" = ").toList ++ pyStr v ++ ['\n'] ++ dumpsFields rest

def dumps (doc : Doc) : List Char :=
  dumpsFields doc

/-! ### Association-list support lemmas -/

theorem lookup_setKey_self (fs : Fields) (k : Key) (v : Item) :
    lookup (setKey fs k v) k = some v := by
  induction fs with
  | nil => simp [setKey, lookup]
  | cons kv rest ih =>
    obtain ⟨k', v'⟩ := kv
    by_cases h : k' = k
    · simp [setKey, lookup, h]
    · simp [setKey, lookup, h, ih]

theorem lookup_setKey_ne (fs : Fields) (k k' : Key) (v : Item) (h : k' ≠ k) :
    lookup (setKey fs k v) k' = lookup fs k' := by
  induction fs with
  | nil => simp [setKey, lookup, Ne.symm h]
  | cons kv rest ih =>
    obtain ⟨k0, v0⟩ := kv
    by_cases h0 : k0 = k
    · subst h0
      simp [setKey, lookup, Ne.symm h]
    · by_cases h1 : k0 = k'
      · subst h1
        simp [setKey, lookup, h0]
      · simp [setKey, lookup, h0, h1, ih]

theorem setKey_self (fs : Fields) (k : Key) (v : Item)
    (h : lookup fs k = some v) : setKey fs k v = fs := by
  induction fs with
  | nil => simp [lookup] at h
  | cons kv rest ih =>
    obtain ⟨k', v'⟩ := kv
    by_cases h0 : k' = k
    · simp [lookup, h0] at h
      simp [setKey, h0, h]
    · simp [lookup, h0] at h
      simp [setKey, h0, ih h]

theorem setKey_absent (fs : Fields) (k : Key) (v : Item)
    (h : lookup fs k = none) : setKey fs k v = fs ++ [(k, v)] := by
  induction fs with
  | nil => simp [setKey]
  | cons kv rest ih =>
    obtain ⟨k', v'⟩ := kv
    by_cases h0 : k' = k
    · simp [lookup, h0] at h
    · simp [lookup, h0] at h
      simp [setKey, h0, ih h]

theorem setKey_ne_nil (fs : Fields) (k : Key) (v : Item) :
    setKey fs k v ≠ [] := by
  cases fs with
  | nil => simp [setKey]
  | cons kv rest =>
    obtain ⟨k', v'⟩ := kv
    by_cases h0 : k' = k <;> simp [setKey, h0]

/-! ### Claim theorems: structured-document updater -/

/-- Claim C1: a dependency entry that is a sub-mapping carrying a true
boolean `workspace` field is left entirely unchanged by the dependency
update — no `version` key is added or modified; in fact the whole
dependency table is returned as it was. -/
theorem workspace_entry_untouched (deps : Fields) (dep : Key)
    (version : List Char) (efs : Fields)
    (hdep : lookup deps dep = some (.table efs))
    (hws : lookup efs wsKey = some (.bool true)) :
    update_dependency_in_table deps dep version = deps := by
  have hdict : update_dict_dependency efs version = efs := by
    unfold update_dict_dependency
    rw [hws]
    rfl
  unfold update_dependency_in_table
  simp only [hdep]
  rw [hdict, setKey_self deps dep (.table efs) hdep]

def wsDeps : Fields :=
  [(("foo").toList, Item.table [(wsKey, Item.bool true)])]

theorem workspace_entry_untouched_witness :
    lookup wsDeps (("foo").toList)
        = some (Item.table [(wsKey, Item.bool true)]) ∧
      update_dependency_in_table wsDeps (("foo").toList) (("1.2.3").toList)
        = wsDeps :=
  ⟨rfl, workspace_entry_untouched _ _ _ _ rfl rfl⟩

/-- Claim C2: a string dependency keeps its leading `^`/`~` constraint
marker: updating to version `V` yields exactly `marker ++ V`; the same
rule applies to the nested `version` key of a sub-mapping entry (when the
entry is actually updated, i.e. carries no truthy `workspace` marker). -/
theorem version_marker_preserved (deps : Fields) (dep : Key)
    (version : List Char) :
    (∀ s, lookup deps dep = some (.str s) →
        lookup (update_dependency_in_table deps dep version) dep
          = some (.str (prefixOfText s ++ version)))
    ∧ (∀ efs s, lookup deps dep = some (.table efs) →
        truthyOpt (lookup efs wsKey) = false →
        lookup efs verKey = some (.str s) →
        update_dependency_in_table deps dep version
          = setKey deps dep
              (.table (setKey efs verKey (.str (prefixOfText s ++ version))))) := by
  constructor
  · intro s hdep
    unfold update_dependency_in_table
    simp only [hdep]
    have hpre : extract_version_prefix (some (.str s)) = prefixOfText s := rfl
    simp [update_string_dependency, hpre, lookup_setKey_self]
  · intro efs s hdep hws hver
    have hdict : update_dict_dependency efs version
        = setKey efs verKey (.str (prefixOfText s ++ version)) := by
      unfold update_dict_dependency
      rw [hws]
      have hpre : extract_version_prefix (some (.table efs)) = prefixOfText s := by
        simp [ extract_version_prefix, hver, pyEntryText]
      simp only [Bool.false_eq_true, if_false, hpre]
    unfold update_dependency_in_table
    simp only [hdep]
    rw [hdict]

def strDeps : Fields := [(("foo").toList, Item.str (("^0.1").toList))]

def tblDeps : Fields :=
  [(("foo").toList,
    Item.table [(verKey, Item.str (("~0.1").toList)),
                (("features").toList, Item.arr [("a").toList])])]

theorem version_marker_preserved_witness :
    (lookup strDeps (("foo").toList) = some (Item.str (("^0.1").toList)) ∧
      lookup (update_dependency_in_table strDeps (("foo").toList)
          (("1.2.3").toList)) (("foo").toList)
        = some (Item.str (("^1.2.3").toList))) ∧
    (truthyOpt (lookup [(verKey, Item.str (("~0.1").toList)),
          (("features").toList, Item.arr [("a").toList])] wsKey) = false ∧
      update_dependency_in_table tblDeps (("foo").toList) (("1.2.3").toList)
        = setKey tblDeps (("foo").toList)
            (.table (setKey [(verKey, Item.str (("~0.1").toList)),
                (("features").toList, Item.arr [("a").toList])] verKey
              (.str (("~1.2.3").toList)))) ) := by
  refine ⟨⟨rfl, ?_⟩, ⟨rfl, ?_⟩⟩
  · have h := (version_marker_preserved strDeps (("foo").toList)
      (("1.2.3").toList)).1 (("^0.1").toList) rfl
    simpa using h
  · have h := (version_marker_preserved tblDeps (("foo").toList)
      (("1.2.3").toList)).2
      [(verKey, Item.str (("~0.1").toList)),
       (("features").toList, Item.arr [("a").toList])]
      (("~0.1").toList) rfl rfl rfl
    simpa using h

/-- Claim C9: a sub-mapping dependency entry with no truthy `workspace`
field and no `version` key receives a fresh `version` binding holding
exactly the new version string (empty marker), appended after the
untouched sibling fields. -/
theorem missing_version_inserted (efs : Fields) (version : List Char)
    (hws : truthyOpt (lookup efs wsKey) = false)
    (hver : lookup efs verKey = none) :
    update_dict_dependency efs version = efs ++ [(verKey, .str version)] := by
  unfold update_dict_dependency
  rw [hws]
  have hpre : extract_version_prefix (some (.table efs)) = [] := by
    simp [ extract_version_prefix, hver, pyEntryText, prefixOfText]
  simp only [Bool.false_eq_true, if_false, hpre, List.nil_append]
  exact setKey_absent efs verKey (.str version) hver

def featEntry : Fields := [(("features").toList, Item.arr [("a").toList])]

theorem missing_version_inserted_witness :
    truthyOpt (lookup featEntry wsKey) = false ∧
      lookup featEntry verKey = none ∧
      update_dict_dependency featEntry (("1.2.3").toList)
        = featEntry ++ [(verKey, Item.str (("1.2.3").toList))] :=
  ⟨rfl, rfl, missing_version_inserted featEntry (("1.2.3").toList) rfl rfl⟩

/-- A per-table step is a no-op when the table is absent or lacks the
dependency key. -/
theorem updateDepStep_noop (dep version : List Char) (doc : Doc) (t : Key)
    (h : lookup doc t = none ∨
      ∃ fs, lookup doc t = some (.table fs) ∧ lookup fs dep = none) :
    updateDepStep dep version doc t = .ok doc := by
  rcases h with h | ⟨fs, h, hfs⟩
  · simp [updateDepStep, h]
  · unfold updateDepStep
    simp only [h]
    by_cases hfs0 : fs = []
    · subst hfs0
      simp [truthy]
    · simp [truthy, hfs0, pyContains, hfs]

/-- Claim C4: when none of the three dependency tables contains the
target dependency (each table being absent or merely lacking the key),
the update returns the document unchanged and raises no error. -/
theorem missing_dependency_noop (doc : Doc) (dep version : List Char)
    (h : ∀ t ∈ tableNames, lookup doc t = none ∨
      ∃ fs, lookup doc t = some (.table fs) ∧ lookup fs dep = none) :
    update_dependency_version doc dep version = .ok doc := by
  have h1 := updateDepStep_noop dep version doc (("dependencies").toList)
    (h _ (by simp [tableNames]))
  have h2 := updateDepStep_noop dep version doc (("dev-dependencies").toList)
    (h _ (by simp [tableNames]))
  have h3 := updateDepStep_noop dep version doc (("build-dependencies").toList)
    (h _ (by simp [tableNames]))
  unfold update_dependency_version tableNames
  simp only [List.foldlM, bind, Except.bind, h1, h2, h3]
  rfl

def noDepDoc : Doc :=
  [(("dependencies").toList, Item.table [(("bar").toList, Item.str (("0.1").toList))])]

theorem missing_dependency_noop_witness :
    update_dependency_version noDepDoc (("foo").toList) (("1").toList)
      = .ok noDepDoc := by
  refine missing_dependency_noop noDepDoc (("foo").toList) (("1").toList) ?_
  intro t ht
  simp only [tableNames, List.mem_cons, List.not_mem_nil, or_false] at ht
  rcases ht with rfl | rfl | rfl
  · exact Or.inr ⟨_, rfl, rfl⟩
  · exact Or.inl rfl
  · exact Or.inl rfl

/-! ### Idempotence of the dependency update -/

theorem prefixOfText_shape (s : List Char) :
    prefixOfText s = [] ∨
      ∃ c, prefixOfText s = [c] ∧ (c = '^' ∨ c = '~') := by
  cases s with
  | nil => exact Or.inl rfl
  | cons c rest =>
    by_cases hc : c = '^' ∨ c = '~'
    · exact Or.inr ⟨c, by simp [prefixOfText, hc], hc⟩
    · exact Or.inl (by simp [prefixOfText, hc])

theorem prefixOfText_marker_append (p v : List Char)
    (hp : p = [] ∨ ∃ c, p = [c] ∧ (c = '^' ∨ c = '~'))
    (hv : prefixOfText v = []) : prefixOfText (p ++ v) = p := by
  rcases hp with rfl | ⟨c, rfl, hc⟩
  · simpa using hv
  · simp [prefixOfText, hc]

theorem extract_table_eq (fs : Fields) :
    extract_version_prefix (some (.table fs))
      = prefixOfText (pyEntryText (lookup fs verKey)) := rfl

theorem extract_shape (e : Option Item) :
    extract_version_prefix e = [] ∨
      ∃ c, extract_version_prefix e = [c] ∧ (c = '^' ∨ c = '~') := by
  unfold extract_version_prefix
  exact prefixOfText_shape _

/-- The constraint marker read back from an updated string version is
the marker that was written, provided the version itself does not start
with `^` or `~`. -/
theorem extract_of_updated (p v : List Char)
    (hp : p = [] ∨ ∃ c, p = [c] ∧ (c = '^' ∨ c = '~'))
    (hv : prefixOfText v = []) :
    extract_version_prefix (some (.str (p ++ v))) = p := by
  unfold extract_version_prefix
  exact prefixOfText_marker_append p v hp hv

theorem update_dict_dependency_idem (efs : Fields) (version : List Char)
    (hv : prefixOfText version = []) :
    update_dict_dependency (update_dict_dependency efs version) version
      = update_dict_dependency efs version := by
  by_cases hws : truthyOpt (lookup efs wsKey) = true
  · simp [update_dict_dependency, hws]
  · have hws' : truthyOpt (lookup efs wsKey) = false := by
      revert hws; cases truthyOpt (lookup efs wsKey) <;> simp
    have hfirst : update_dict_dependency efs version
        = setKey efs verKey
            (.str ( extract_version_prefix (some (.table efs)) ++ version)) := by
      unfold update_dict_dependency
      rw [hws']
      simp
    rw [hfirst]
    have hwslk : lookup (setKey efs verKey
        (.str ( extract_version_prefix (some (.table efs)) ++ version))) wsKey
        = lookup efs wsKey :=
      lookup_setKey_ne efs verKey wsKey _ (by decide)
    unfold update_dict_dependency
    rw [hwslk, hws']
    have hverlk : lookup (setKey efs verKey
        (.str ( extract_version_prefix (some (.table efs)) ++ version))) verKey
        = some (.str ( extract_version_prefix (some (.table efs)) ++ version)) :=
      lookup_setKey_self efs verKey _
    have hpre2 : extract_version_prefix (some (.table (setKey efs verKey
        (.str ( extract_version_prefix (some (.table efs)) ++ version)))))
        = extract_version_prefix (some (.table efs)) := by
      rw [extract_table_eq, hverlk]
      exact prefixOfText_marker_append _ version (extract_shape _) hv
    simp only [Bool.false_eq_true, if_false, hpre2]
    exact setKey_self _ verKey _ (lookup_setKey_self efs verKey _)

/-- When the dependency key is present, `_update_dependency_in_table`
always rewrites its binding through `setKey`. -/
theorem update_in_table_eq_setKey (fs : Fields) (dep : Key)
    (version : List Char) (e : Item) (h : lookup fs dep = some e) :
    ∃ x, update_dependency_in_table fs dep version = setKey fs dep x := by
  cases e with
  | table efs =>
    refine ⟨.table (update_dict_dependency efs version), ?_⟩
    unfold update_dependency_in_table
    simp only [h]
  | str s =>
    refine ⟨.str ( extract_version_prefix (some (.str s)) ++ version), ?_⟩
    unfold update_dependency_in_table
    simp only [h]
    rfl
  | bool b =>
    refine ⟨.str ( extract_version_prefix (some (.bool b)) ++ version), ?_⟩
    unfold update_dependency_in_table
    simp only [h]
    rfl
  | arr xs =>
    refine ⟨.str ( extract_version_prefix (some (.arr xs)) ++ version), ?_⟩
    unfold update_dependency_in_table
    simp only [h]
    rfl

theorem update_in_table_idem (fs : Fields) (dep : Key) (version : List Char)
    (hv : prefixOfText version = []) (e : Item) (h : lookup fs dep = some e) :
    update_dependency_in_table (update_dependency_in_table fs dep version)
        dep version
      = update_dependency_in_table fs dep version := by
  cases e with
  | table efs =>
    have h1 : update_dependency_in_table fs dep version
        = setKey fs dep (.table (update_dict_dependency efs version)) := by
      unfold update_dependency_in_table
      simp only [h]
    rw [h1]
    have h2 : lookup (setKey fs dep (.table (update_dict_dependency efs version))) dep
        = some (.table (update_dict_dependency efs version)) :=
      lookup_setKey_self fs dep _
    unfold update_dependency_in_table
    simp only [h2]
    rw [update_dict_dependency_idem efs version hv]
    exact setKey_self _ dep _ h2
  | str s =>
    have h1 : update_dependency_in_table fs dep version
        = setKey fs dep (.str ( extract_version_prefix (some (.str s)) ++ version)) := by
      unfold update_dependency_in_table
      simp only [h]
      rfl
    rw [h1]
    have h2 : lookup (setKey fs dep
        (.str ( extract_version_prefix (some (.str s)) ++ version))) dep
        = some (.str ( extract_version_prefix (some (.str s)) ++ version)) :=
      lookup_setKey_self fs dep _
    unfold update_dependency_in_table
    simp only [h2]
    unfold update_string_dependency
    have hpre : extract_version_prefix (some (.str
        ( extract_version_prefix (some (.str s)) ++ version)))
        = extract_version_prefix (some (.str s)) :=
      extract_of_updated _ version (extract_shape _) hv
    rw [hpre]
    exact setKey_self _ dep _ h2
  | bool b =>
    have h1 : update_dependency_in_table fs dep version
        = setKey fs dep (.str ( extract_version_prefix (some (.bool b)) ++ version)) := by
      unfold update_dependency_in_table
      simp only [h]
      rfl
    rw [h1]
    have h2 : lookup (setKey fs dep
        (.str ( extract_version_prefix (some (.bool b)) ++ version))) dep
        = some (.str ( extract_version_prefix (some (.bool b)) ++ version)) :=
      lookup_setKey_self fs dep _
    unfold update_dependency_in_table
    simp only [h2]
    unfold update_string_dependency
    have hpre : extract_version_prefix (some (.str
        ( extract_version_prefix (some (.bool b)) ++ version)))
        = extract_version_prefix (some (.bool b)) :=
      extract_of_updated _ version (extract_shape _) hv
    rw [hpre]
    exact setKey_self _ dep _ h2
  | arr xs =>
    have h1 : update_dependency_in_table fs dep version
        = setKey fs dep (.str ( extract_version_prefix (some (.arr xs)) ++ version)) := by
      unfold update_dependency_in_table
      simp only [h]
      rfl
    rw [h1]
    have h2 : lookup (setKey fs dep
        (.str ( extract_version_prefix (some (.arr xs)) ++ version))) dep
        = some (.str ( extract_version_prefix (some (.arr xs)) ++ version)) :=
      lookup_setKey_self fs dep _
    unfold update_dependency_in_table
    simp only [h2]
    unfold update_string_dependency
    have hpre : extract_version_prefix (some (.str
        ( extract_version_prefix (some (.arr xs)) ++ version)))
        = extract_version_prefix (some (.arr xs)) :=
      extract_of_updated _ version (extract_shape _) hv
    rw [hpre]
    exact setKey_self _ dep _ h2

/-- A per-table step only touches the binding of its own table name. -/
theorem updateDepStep_lookup_ne (dep version : List Char) (doc : Doc)
    (t : Key) (d : Doc) (k : Key)
    (h : updateDepStep dep version doc t = .ok d) (hk : k ≠ t) :
    lookup d k = lookup doc k := by
  unfold updateDepStep at h
  cases hl : lookup doc t with
  | none =>
    simp only [hl, Except.ok.injEq] at h
    subst h
    rfl
  | some deps =>
    simp only [hl] at h
    by_cases htr : truthy deps = false
    · rw [if_pos htr] at h
      simp only [Except.ok.injEq] at h
      subst h
      rfl
    · rw [if_neg htr] at h
      cases hcc : pyContains dep deps with
      | error e =>
        simp only [hcc] at h
        exact Except.noConfusion h
      | ok b =>
        simp only [hcc] at h
        cases b with
        | false =>
          simp only [Except.ok.injEq] at h
          subst h
          rfl
        | true =>
          cases deps with
          | table fs =>
            simp only [Except.ok.injEq] at h
            subst h
            exact lookup_setKey_ne doc t k _ hk
          | str s => exact Except.noConfusion h
          | bool b2 => exact Except.noConfusion h
          | arr xs => exact Except.noConfusion h

/-- After a successful per-table step, any document carrying the stepped
binding is a fixpoint of that step (the heart of idempotence). -/
theorem updateDepStep_fix (dep version : List Char)
    (hv : prefixOfText version = []) (doc : Doc) (t : Key) (d : Doc)
    (h : updateDepStep dep version doc t = .ok d)
    (doc' : Doc) (hdoc' : lookup doc' t = lookup d t) :
    updateDepStep dep version doc' t = .ok doc' := by
  unfold updateDepStep at h
  cases hl : lookup doc t with
  | none =>
    simp only [hl, Except.ok.injEq] at h
    subst h
    rw [hl] at hdoc'
    unfold updateDepStep
    simp only [hdoc']
  | some deps =>
    simp only [hl] at h
    by_cases htr : truthy deps = false
    · rw [if_pos htr] at h
      simp only [Except.ok.injEq] at h
      subst h
      rw [hl] at hdoc'
      unfold updateDepStep
      simp only [hdoc', htr]
      rfl
    · have htr' : truthy deps = true := by
        revert htr
        cases truthy deps <;> simp
      rw [if_neg htr] at h
      cases hcc : pyContains dep deps with
      | error e =>
        simp only [hcc] at h
        exact Except.noConfusion h
      | ok b =>
        simp only [hcc] at h
        cases b with
        | false =>
          simp only [Except.ok.injEq] at h
          subst h
          rw [hl] at hdoc'
          unfold updateDepStep
          simp only [hdoc', htr', hcc]
          simp
        | true =>
          cases deps with
          | table fs =>
            simp only [Except.ok.injEq] at h
            subst h
            have he : ∃ e, lookup fs dep = some e := by
              simp only [pyContains, Except.ok.injEq] at hcc
              exact Option.isSome_iff_exists.mp hcc
            obtain ⟨e, he⟩ := he
            obtain ⟨x, hx⟩ := update_in_table_eq_setKey fs dep version e he
            have hlk' : lookup (update_dependency_in_table fs dep version) dep
                = some x := by
              rw [hx]
              exact lookup_setKey_self fs dep x
            rw [lookup_setKey_self] at hdoc'
            unfold updateDepStep
            simp only [hdoc']
            have ht2 : truthy (.table (update_dependency_in_table fs dep version))
                = true := by
              rw [hx]
              have hnn := setKey_ne_nil fs dep x
              cases hsk : setKey fs dep x with
              | nil => exact absurd hsk hnn
              | cons y ys => simp [truthy]
            have hc2 : pyContains dep
                (.table (update_dependency_in_table fs dep version)) = .ok true := by
              simp [pyContains, hlk']
            simp only [ht2, hc2]
            rw [update_in_table_idem fs dep version hv e he]
            rw [setKey_self doc' t (.table (update_dependency_in_table fs dep version)) hdoc']
            simp
          | str s => exact Except.noConfusion h
          | bool b2 => exact Except.noConfusion h
          | arr xs => exact Except.noConfusion h

/-- Claim C3 (amended): for a version string that does not itself start
with a `^` or `~` constraint marker, a second application of the
dependency update returns its input unchanged: the serialized output of
two applications equals that of one. -/
theorem dependency_update_idem (doc : Doc) (dep version : List Char)
    (d1 : Doc) (hv : prefixOfText version = [])
    (h : update_dependency_version doc dep version = .ok d1) :
    update_dependency_version d1 dep version = .ok d1 := by
  unfold update_dependency_version tableNames at h ⊢
  simp only [List.foldlM, bind] at h ⊢
  cases ha : updateDepStep dep version doc (("dependencies").toList) with
  | error e =>
    rw [ha] at h
    simp [Except.bind] at h
  | ok da =>
    rw [ha] at h
    simp only [Except.bind] at h
    cases hb : updateDepStep dep version da (("dev-dependencies").toList) with
    | error e =>
      rw [hb] at h
      simp [Except.bind] at h
    | ok db =>
      rw [hb] at h
      simp only [Except.bind] at h
      cases hc : updateDepStep dep version db (("build-dependencies").toList) with
      | error e =>
        rw [hc] at h
        simp [Except.bind] at h
      | ok dc =>
        rw [hc] at h
        simp only [Except.bind, pure, Except.pure, Except.ok.injEq] at h
        subst h
        have la : lookup dc (("dependencies").toList)
            = lookup da (("dependencies").toList) := by
          rw [updateDepStep_lookup_ne dep version db _ dc _ hc (by decide),
            updateDepStep_lookup_ne dep version da _ db _ hb (by decide)]
        have lb : lookup dc (("dev-dependencies").toList)
            = lookup db (("dev-dependencies").toList) :=
          updateDepStep_lookup_ne dep version db _ dc _ hc (by decide)
        have sa : updateDepStep dep version dc (("dependencies").toList) = .ok dc :=
          updateDepStep_fix dep version hv doc _ da ha dc la
        have sb : updateDepStep dep version dc (("dev-dependencies").toList) = .ok dc :=
          updateDepStep_fix dep version hv da _ db hb dc lb
        have sc : updateDepStep dep version dc (("build-dependencies").toList) = .ok dc :=
          updateDepStep_fix dep version hv db _ dc hc dc rfl
        rw [sa]
        simp only [Except.bind]
        rw [sb]
        simp only [Except.bind]
        rw [sc]
        rfl

def idemDoc : Doc :=
  [(("dependencies").toList, Item.table [(("foo").toList, Item.str (("1").toList))])]

def idemDoc1 : Doc :=
  [(("dependencies").toList, Item.table [(("foo").toList, Item.str (("^2").toList))])]

def idemDoc2 : Doc :=
  [(("dependencies").toList, Item.table [(("foo").toList, Item.str (("^^2").toList))])]

/-- Claim C3, counterexample as stated: with the version string `^2`
(any non-empty text is accepted, no semver validation is performed), the
first update writes `^2` but the second re-reads `^` as a constraint
marker and writes `^^2`, so applying the update twice serializes
differently from applying it once. -/
theorem dependency_update_not_idempotent :
    update_dependency_version idemDoc (("foo").toList) (("^2").toList)
        = .ok idemDoc1 ∧
      update_dependency_version idemDoc1 (("foo").toList) (("^2").toList)
        = .ok idemDoc2 ∧
      dumps idemDoc2 ≠ dumps idemDoc1 :=
  ⟨rfl, rfl, by decide⟩

def idemDocA : Doc :=
  [(("dependencies").toList, Item.table [(("foo").toList, Item.str (("^2.0").toList))])]

theorem dependency_update_idem_witness :
    prefixOfText (("2.0").toList) = [] ∧
      update_dependency_version idemDoc (("foo").toList) (("2.0").toList)
        = .ok [(("dependencies").toList,
            Item.table [(("foo").toList, Item.str (("2.0").toList))])] ∧
      update_dependency_version
          [(("dependencies").toList,
            Item.table [(("foo").toList, Item.str (("2.0").toList))])]
          (("foo").toList) (("2.0").toList)
        = .ok [(("dependencies").toList,
            Item.table [(("foo").toList, Item.str (("2.0").toList))])] :=
  ⟨rfl, rfl, dependency_update_idem idemDoc (("foo").toList) (("2.0").toList)
    _ rfl rfl⟩

/-! ### The per-fence-body transform `replace_version_in_toml` -/

/-- Trailing run matched by the regex `((?:\r?\n)*)$` of
`replace_version_in_toml` (line 521), computed on the reversed text:
the longest suffix made of newline sequences, each `\n` or `\r\n`. -/
def nlSeqRunRev : List Char → List Char
  | '\n' :: '\r' :: rest => '\n' :: '\r' :: nlSeqRunRev rest
  | '\n' :: rest => '\n' :: nlSeqRunRev rest
  | _ => []

def trailingNlSeqRun (s : List Char) : List Char :=
  (nlSeqRunRev s.reverse).reverse

/-- Python `text.rstrip("\r\n")`: drop all trailing CR/LF characters. -/
def rstripCrLf (s : List Char) : List Char :=
  (s.reverse.dropWhile (fun c => c == '\r' || c == '\n')).reverse

def orthoKey : Key := ("ortho_config").toList

/-- The loop of `replace_version_in_toml` (lines 524-528) over the three
dependency tables, threading the `dependency_found` flag.  A table slot
holding a truthy non-mapping that passes the `in` test would raise
`TypeError` inside `_update_dependency_in_table` (`deps[dependency]`),
and `in` on a bool raises directly; both are modelled as errors. -/
def rvitTables (version : List Char) : List Key → Doc → Bool →
    Except Unit (Bool × Doc)
  | [], doc, found => .ok (found, doc)
  | t :: rest, doc, found =>
    match lookup doc t with
    | none => rvitTables version rest doc found
    | some deps =>
      if truthy deps = false then rvitTables version rest doc found
      else
        match pyContains orthoKey deps with
        | .error e => .error e
        | .ok false => rvitTables version rest doc found
        | .ok true =>
          match deps with
          | .table fs =>
            rvitTables version rest
              (setKey doc t (.table (update_dependency_in_table fs orthoKey version)))
              true
          | _ => .error ()

/-- Embeds `replace_version_in_toml` (lines 504-533).  The `tomlkit`
parser is not part of this repository, so it is passed as a parameter
`parse`; a parse failure (`TOMLKitError`) is `none` and returns the
snippet unchanged.  On success the three tables are updated, a missing
dependency returns the snippet unchanged, and otherwise the dump is
re-serialized with the snippet's original trailing-newline run. -/
def replace_version_in_toml (parse : List Char → Option Doc)
    (snippet version : List Char) : Except Unit (List Char) :=
  match parse snippet with
  | none => .ok snippet
  | some doc =>
    let newlineSuffix := trailingNlSeqRun snippet
    match rvitTables version tableNames doc false with
    | .error e => .error e
    | .ok (found, doc2) =>
      if found = false then .ok snippet
      else
        let base := rstripCrLf (dumps doc2)
        if newlineSuffix.isEmpty then .ok base else .ok (base ++ newlineSuffix)

theorem rvitTables_noop (version : List Char) (ts : List Key) (doc : Doc)
    (found : Bool)
    (h : ∀ t ∈ ts, lookup doc t = none ∨
      ∃ fs, lookup doc t = some (.table fs) ∧ lookup fs orthoKey = none) :
    rvitTables version ts doc found = .ok (found, doc) := by
  induction ts with
  | nil => rfl
  | cons t rest ih =>
    have ht := h t (by simp)
    have hrest : ∀ t' ∈ rest, lookup doc t' = none ∨
        ∃ fs, lookup doc t' = some (.table fs) ∧ lookup fs orthoKey = none := by
      intro t' ht'
      exact h t' (by simp [ht'])
    rcases ht with ht | ⟨fs, ht, hfs⟩
    · unfold rvitTables
      simp only [ht]
      exact ih hrest
    · unfold rvitTables
      simp only [ht]
      by_cases hfs0 : fs = []
      · subst hfs0
        have htr : truthy (.table ([] : Fields)) = false := by simp [truthy]
        rw [if_pos htr]
        exact ih hrest
      · have htr : truthy (.table fs) = true := by
          cases fs with
          | nil => exact absurd rfl hfs0
          | cons y ys => simp [truthy]
        rw [if_neg (by simp [htr])]
        have hc : pyContains orthoKey (.table fs) = .ok false := by
          simp [pyContains, hfs]
        simp only [hc]
        exact ih hrest

/-- Claim C8: `replace_version_in_toml` returns the original snippet
unchanged — raising nothing — whenever the snippet does not parse as a
structured document, or none of the three dependency tables contains the
target dependency `ortho_config` (each table absent or lacking the
key). -/
theorem replace_version_in_toml_noop (parse : List Char → Option Doc)
    (snippet version : List Char)
    (h : parse snippet = none ∨
      ∃ doc, parse snippet = some doc ∧ ∀ t ∈ tableNames,
        lookup doc t = none ∨
          ∃ fs, lookup doc t = some (.table fs) ∧ lookup fs orthoKey = none) :
    replace_version_in_toml parse snippet version = .ok snippet := by
  rcases h with h | ⟨doc, h, htab⟩
  · unfold replace_version_in_toml
    simp only [h]
  · unfold replace_version_in_toml
    simp only [h]
    rw [rvitTables_noop version tableNames doc false htab]
    rfl

theorem replace_version_in_toml_noop_witness :
    replace_version_in_toml (fun _ => none) (("not toml [").toList)
        (("1").toList)
      = .ok (("not toml [").toList) :=
  replace_version_in_toml_noop (fun _ => none) (("not toml [").toList)
    (("1").toList) (Or.inl rfl)

/-! ### Markdown fenced-block rewriting

The block tokenizer (`markdown-it-py`) is external to the repository, so
fence tokens are passed to `replace_fences` as data; each `Token` mirrors
the fields the script reads: `type`, `info`, `markup`, `map` (the source
line span) and `content` (the fence body). -/

structure Token where
  type : List Char
  info : List Char
  markup : List Char
  map : Nat × Nat
  content : List Char

/-- Python `str.splitlines(keepends=True)` over the `\n`, `\r\n` and
`\r` terminators (the ones that occur in the Markdown the script
rewrites). -/
def splitLinesChars : List Char → List (List Char)
  | [] => []
  | '\r' :: '\n' :: rest => ['\r', '\n'] :: splitLinesChars rest
  | c :: rest =>
    if c = '\n' then ['\n'] :: splitLinesChars rest
    else if c = '\r' then ['\r'] :: splitLinesChars rest
    else
      match splitLinesChars rest with
      | [] => [[c]]
      | l :: ls => (c :: l) :: ls

/-- Python `str.split()` with no separator: split on whitespace runs,
dropping empty words (so the result is `[]` for all-whitespace input). -/
def isPyWs (c : Char) : Bool :=
  c == ' ' || c == '\t' || c == '\n' || c == '\r' || c == '\x0b' || c == '\x0c'

def pySplitWsAux : List Char → List Char → List (List Char)
  | [], acc => if acc.isEmpty then [] else [acc.reverse]
  | c :: rest, acc =>
    if isPyWs c then
      if acc.isEmpty then pySplitWsAux rest []
      else acc.reverse :: pySplitWsAux rest []
    else pySplitWsAux rest (c :: acc)

def pySplitWs (s : List Char) : List (List Char) :=
  pySplitWsAux s []

/-- Embeds `_is_matching_fence_token` (lines 32-47).  The Python
expression `((tok.info or "").split()[0] or "").lower()` indexes
`[0]` into the result of `split()`, which is the empty list whenever the
info string is empty or whitespace-only — an `IndexError`, modelled as
`.error ()`. -/
def is_matching_fence_token (tok : Token) (lang : List Char) :
    Except Unit Bool :=
  if tok.type ≠ ("fence").toList then .ok false
  else
    match pySplitWs tok.info with
    | [] => .error ()
    | w :: _ => .ok (w.map Char.toLower == lang.map Char.toLower)

/-- Embeds `_extract_fence_indent` (lines 50-59): everything left of the
first occurrence of the fence marker on the opening line (`str.find`,
with `-1` mapped to the empty indent). -/
def extract_fence_indent (openingLine fenceMarker : List Char) : List Char :=
  match findSub openingLine fenceMarker with
  | none => []
  | some p => openingLine.take p

/-- The marker used on re-emission: `tok.markup or "``​`"` (line 84;
the zero-width characters here only keep the doc comment well-formed). -/
def fenceMarkerOf (tok : Token) : List Char :=
  if tok.markup.isEmpty then ("```").toList else tok.markup

/-- Trailing-newline run recorded by the regex `(\r?\n+)$` (line 89):
the maximal trailing run of `\n` characters, plus one preceding `\r`
when present. -/
def fenceSuffix (body : List Char) : List Char :=
  let ns := body.reverse.takeWhile (fun c => c == '\n')
  if ns.isEmpty then []
  else
    match body.reverse.drop ns.length with
    | '\r' :: _ => '\r' :: ns
    | _ => ns

/-- Lines 88-91: apply the transform, strip all trailing CR/LF from its
output, and reattach the recorded trailing-newline run of the original
body. -/
def rewrittenBody (replace_fn : List Char → List Char)
    (body : List Char) : List Char :=
  rstripCrLf (replace_fn body) ++ fenceSuffix body

/-- Embeds `_process_fence_token` (lines 62-95): re-emit the fence with
its original indentation and marker, the (or tag-implied) info string,
the transformed body with indentation re-applied per line, and a closing
marker line.  `lines[start]` is total in Python only for tokens whose
span lies inside `lines`; the model reads the line with a default. -/
def process_fence_token (tok : Token) (lines : List (List Char))
    (lang : List Char) (replace_fn : List Char → List Char) : List Char :=
  let fenceMarker := fenceMarkerOf tok
  let indent := extract_fence_indent ((lines.drop tok.map.1).headD []) fenceMarker
  let info := if tok.info.isEmpty then lang else tok.info
  let newBody := rewrittenBody replace_fn tok.content
  let indented := ((splitLinesChars newBody).map (fun l => indent ++ l)).flatten
  indent ++ fenceMarker ++ info ++ ['\n'] ++ indented ++ indent ++ fenceMarker ++ ['\n']

/-- The loop of `replace_fences` (lines 124-133): emit the untouched
lines before each matching fence, the rewritten fence, and finally the
lines after the last match.  A failing fence-match test propagates. -/
def replaceFencesAux (lines : List (List Char)) (lang : List Char)
    (replace_fn : List Char → List Char) :
    List Token → Nat → Except Unit (List Char)
  | [], last => .ok (lines.drop last).flatten
  | tok :: rest, last =>
    match is_matching_fence_token tok lang with
    | .error e => .error e
    | .ok false => replaceFencesAux lines lang replace_fn rest last
    | .ok true =>
      match replaceFencesAux lines lang replace_fn rest tok.map.2 with
      | .error e => .error e
      | .ok tail =>
        .ok (((lines.drop last).take (tok.map.1 - last)).flatten
          ++ process_fence_token tok lines lang replace_fn ++ tail)

/-- Embeds `replace_fences` (lines 98-134), with the tokenizer's output
passed in as `tokens`. -/
def replace_fences (tokens : List Token) (md_text lang : List Char)
    (replace_fn : List Char → List Char) : Except Unit (List Char) :=
  replaceFencesAux (splitLinesChars md_text) lang replace_fn tokens 0

/-- Maximal trailing run of newline characters (`\r`/`\n`) of a text:
what "the trailing newline sequence" of a body denotes. -/
def fullNlRun (s : List Char) : List Char :=
  (s.reverse.takeWhile (fun c => c == '\r' || c == '\n')).reverse

/-- Characters are newline-free (used for fence markers, info strings
and indentation). -/
def noNlCr (l : List Char) : Bool :=
  l.all (fun c => !(c == '\n' || c == '\r'))

/-! ### Claims on the fence rewriter -/

def bareFenceToken : Token :=
  ⟨("fence").toList, [], ("```").toList, (0, 3), ("x\n").toList⟩

/-- Claim C5 (code bug): a document containing zero fences of the target
language should be returned unchanged, but a fence with an empty (or
whitespace-only) info string — a plain untagged code block — makes
`_is_matching_fence_token` evaluate `"".split()[0]`, an `IndexError`,
so `replace_fences` raises instead of returning the text.  Shown here on
the tokenization of the Markdown text three-backticks/x/three-backticks,
which contains no `toml` fence. -/
theorem replace_fences_raises_on_bare_fence :
    is_matching_fence_token bareFenceToken (("toml").toList) = .error () ∧
      replace_fences [bareFenceToken] (("```\nx\n```\n").toList)
        (("toml").toList) (fun b => b) = .error () :=
  ⟨rfl, rfl⟩

theorem takeWhile_append_all (p : Char → Bool) (a b : List Char)
    (ha : a.all p = true) :
    (a ++ b).takeWhile p = a ++ b.takeWhile p := by
  induction a with
  | nil => simp
  | cons c a' ih =>
    simp only [List.all_cons, Bool.and_eq_true] at ha
    simp [List.takeWhile_cons, ha.1, ih ha.2]

theorem takeWhile_dropWhile_nil (p : Char → Bool) (l : List Char) :
    (l.dropWhile p).takeWhile p = [] := by
  induction l with
  | nil => rfl
  | cons c l' ih =>
    by_cases hc : p c = true
    · simp [List.dropWhile_cons, hc, ih]
    · simp [List.dropWhile_cons, List.takeWhile_cons, hc]

theorem fenceSuffix_all_nl (body : List Char) :
    (fenceSuffix body).all (fun c => c == '\r' || c == '\n') = true := by
  unfold fenceSuffix
  have hns : ∀ c ∈ body.reverse.takeWhile (fun c => c == '\n'),
      c = '\n' := by
    intro c hc
    have h := List.mem_takeWhile_imp hc
    simpa using h
  by_cases h0 : (body.reverse.takeWhile (fun c => c == '\n')).isEmpty = true
  · simp [h0]
  · simp only [h0, if_false, Bool.false_eq_true]
    cases hdrop : body.reverse.drop
        (body.reverse.takeWhile (fun c => c == '\n')).length with
    | nil =>
      simp only [List.all_eq_true]
      intro x hx
      simp [hns x hx]
    | cons d ds =>
      by_cases hd : d = '\r'
      · subst hd
        simp only [List.all_eq_true, List.mem_cons]
        intro x hx
        rcases hx with rfl | hx
        · simp
        · simp [hns x hx]
      · have hmatch : (match (d :: ds : List Char) with
            | '\r' :: _ => '\r' :: body.reverse.takeWhile (fun c => c == '\n')
            | _ => body.reverse.takeWhile (fun c => c == '\n'))
            = body.reverse.takeWhile (fun c => c == '\n') := by
          cases ds <;> simp_all
        rw [hmatch]
        simp only [List.all_eq_true]
        intro x hx
        simp [hns x hx]

theorem fullNlRun_rstrip_append (s w : List Char)
    (hw : w.all (fun c => c == '\r' || c == '\n') = true) :
    fullNlRun (rstripCrLf s ++ w) = w := by
  unfold fullNlRun rstripCrLf
  rw [List.reverse_append, List.reverse_reverse]
  rw [takeWhile_append_all _ _ _ (by simpa using hw)]
  rw [takeWhile_dropWhile_nil]
  simp

/-- Claim C6, counterexample as stated: the regex `(\r?\n+)$` admits at
most one leading `\r`, so a body ending in the two newline sequences
`\r\n\r\n` records only the final `\r\n`; even the identity transform
yields a rewritten body ending in a single `\r\n`. -/
theorem trailing_newlines_not_preserved :
    fullNlRun (("a\r\n\r\n").toList) = ("\r\n\r\n").toList ∧
      rewrittenBody (fun b => b) (("a\r\n\r\n").toList) = ("a\r\n").toList ∧
      fullNlRun (rewrittenBody (fun b => b) (("a\r\n\r\n").toList))
        ≠ fullNlRun (("a\r\n\r\n").toList) :=
  ⟨by decide, by decide, by decide⟩

/-- Claim C6 (amended): whenever the body's trailing newline run is of
the shape the recording regex `(\r?\n+)$` can capture — a run of `\n`
sequences with at most one leading `\r` (this covers 0, 1 or 2 trailing
`\n`, a final `\r\n`, and `\r\n` followed by `\n`, but not a `\r\n`
preceded by another newline sequence) — the rewritten body ends in
exactly the same trailing newline run as the original, regardless of how
many trailing newlines the transform's output carries. -/
theorem trailing_newlines_preserved (body : List Char)
    (replace_fn : List Char → List Char)
    (h : fullNlRun body = fenceSuffix body) :
    fullNlRun (rewrittenBody replace_fn body) = fullNlRun body := by
  unfold rewrittenBody
  rw [fullNlRun_rstrip_append _ _ (fenceSuffix_all_nl body), h]

theorem trailing_newlines_preserved_witness :
    fullNlRun (("x\r\n\n").toList) = fenceSuffix (("x\r\n\n").toList) ∧
      fullNlRun (rewrittenBody (fun _ => ("y\n\n\n\n\n").toList)
          (("x\r\n\n").toList))
        = fullNlRun (("x\r\n\n").toList) :=
  ⟨by decide, trailing_newlines_preserved _ _ (by decide)⟩

theorem ends_with_lf (a b : List Char) (hb : b.getLast? = some '\n') :
    (a ++ b).getLast? = some '\n' := by
  induction a with
  | nil => simpa using hb
  | cons c a' ih =>
    cases hab : a' ++ b with
    | nil =>
      cases b with
      | nil => simp at hb
      | cons d ds => simp at hab
    | cons d ds =>
      rw [List.cons_append, hab, List.getLast?_cons_cons, ← hab, ih]

def eofText : List Char := ("x\n```toml\na\n```").toList

def eofTokens : List Token :=
  [⟨("paragraph_open").toList, [], [], (0, 1), []⟩,
   ⟨("inline").toList, ("x").toList, [], (0, 1), ("x").toList⟩,
   ⟨("paragraph_close").toList, [], [], (0, 1), []⟩,
   ⟨("fence").toList, ("toml").toList, ("```").toList, (1, 4), ("a\n").toList⟩]

/-- Claim C10: the text emitted for a rewritten fence always ends with a
newline after the closing marker; in particular, on the tokenization of
a Markdown text whose final `toml` fence ends at end-of-file without a
trailing newline, the output is the input plus a newline it did not
have. -/
theorem rewritten_fence_ends_with_newline :
    (∀ (tok : Token) (lines : List (List Char)) (lang : List Char)
        (replace_fn : List Char → List Char),
      (process_fence_token tok lines lang replace_fn).getLast? = some '\n')
    ∧ replace_fences eofTokens eofText (("toml").toList) (fun b => b)
        = .ok (eofText ++ ['\n'])
    ∧ eofText.getLast? ≠ some '\n' := by
  refine ⟨?_, rfl, by decide⟩
  intro tok lines lang replace_fn
  simp only [process_fence_token]
  repeat apply ends_with_lf
  rfl

/-! ### Line-splitting lemmas for the indentation claim -/

theorem splitLines_nl (rest : List Char) :
    splitLinesChars ('\n' :: rest) = ['\n'] :: splitLinesChars rest := rfl

theorem splitLines_crnl (rest : List Char) :
    splitLinesChars ('\r' :: '\n' :: rest) = ['\r', '\n'] :: splitLinesChars rest := rfl

theorem splitLines_cr (rest : List Char) (h : rest.head? ≠ some '\n') :
    splitLinesChars ('\r' :: rest) = ['\r'] :: splitLinesChars rest := by
  cases rest with
  | nil => rfl
  | cons d t =>
    have hd : d ≠ '\n' := by simpa using h
    conv_lhs => rw [splitLinesChars.eq_def]
    simp [hd]

theorem splitLines_other (c : Char) (rest : List Char) (hn : c ≠ '\n') (hr : c ≠ '\r') :
    splitLinesChars (c :: rest)
      = match splitLinesChars rest with
        | [] => [[c]]
        | l :: ls => (c :: l) :: ls := by
  conv_lhs => rw [splitLinesChars.eq_def]
  simp [hn, hr]

theorem splitLinesChars_ne_nil (s : List Char) (h : s ≠ []) :
    splitLinesChars s ≠ [] := by
  induction s using splitLinesChars.induct with
  | case1 => exact absurd rfl h
  | case2 rest ih => simp [splitLines_crnl]
  | case3 rest hno ih => simp [splitLines_nl]
  | case4 rest hno hne ih =>
    rw [splitLines_cr]
    · simp
    · intro hh
      cases rest with
      | nil => simp at hh
      | cons d t =>
        simp at hh
        exact hno t rfl (by simp [hh])
  | case5 c rest hno hn hr hsplit ih =>
    rw [splitLines_other c rest hn hr, hsplit]
    simp
  | case6 c rest hno hn hr l ls hsplit ih =>
    rw [splitLines_other c rest hn hr, hsplit]
    simp

theorem splitLines_nil_eq : splitLinesChars [] = [] := rfl

theorem splitLines_merge (a b : List Char) (ha : noNlCr a = true) :
    splitLinesChars (a ++ b)
      = match splitLinesChars b with
        | [] => if a.isEmpty then [] else [a]
        | l :: ls => (a ++ l) :: ls := by
  induction a with
  | nil =>
    cases hb : splitLinesChars b with
    | nil => simp [hb]
    | cons l ls => simp [hb]
  | cons c a' ih =>
    simp only [noNlCr, List.all_cons, Bool.and_eq_true] at ha
    have hn : c ≠ '\n' := by
      intro hc
      subst hc
      simp at ha
    have hr : c ≠ '\r' := by
      intro hc
      subst hc
      simp at ha
    have ih' := ih ha.2
    rw [List.cons_append, splitLines_other c (a' ++ b) hn hr, ih']
    cases hb : splitLinesChars b with
    | nil =>
      by_cases ha' : a' = []
      · subst ha'
        simp
      · simp [ha', List.isEmpty_iff]
    | cons l ls => simp

theorem getLast?_cons_of_ne_nil (c : Char) (rest : List Char) (h : rest ≠ []) :
    (c :: rest).getLast? = rest.getLast? := by
  cases rest with
  | nil => exact absurd rfl h
  | cons d t => exact List.getLast?_cons_cons

theorem splitLines_append (a b : List Char)
    (h : a.getLast? = some '\n' ∨ (a.getLast? = some '\r' ∧ b.head? ≠ some '\n')) :
    splitLinesChars (a ++ b) = splitLinesChars a ++ splitLinesChars b := by
  induction a using splitLinesChars.induct with
  | case1 => simp at h
  | case2 rest ih =>
    cases hrest : rest with
    | nil =>
      subst hrest
      rw [List.cons_append, List.cons_append, List.nil_append, splitLines_crnl]
      simp [splitLines_crnl, splitLines_nil_eq]
    | cons d t =>
      subst hrest
      have hlast : ('\r' :: '\n' :: d :: t).getLast? = (d :: t).getLast? := by
        rw [List.getLast?_cons_cons, List.getLast?_cons_cons]
      rw [hlast] at h
      rw [List.cons_append, List.cons_append, splitLines_crnl, splitLines_crnl]
      rw [List.cons_append] at ih ⊢
      rw [ih h]
      simp
  | case3 rest hno ih =>
    cases hrest : rest with
    | nil =>
      subst hrest
      rw [List.cons_append, List.nil_append, splitLines_nl]
      simp [splitLines_nl, splitLines_nil_eq]
    | cons d t =>
      subst hrest
      have hlast : ('\n' :: d :: t).getLast? = (d :: t).getLast? :=
        List.getLast?_cons_cons
      rw [hlast] at h
      rw [List.cons_append, splitLines_nl, splitLines_nl, ih h]
      simp
  | case4 rest hno hne ih =>
    have hresthead : rest.head? ≠ some '\n' := by
      intro hh
      cases rest with
      | nil => simp at hh
      | cons d t =>
        simp at hh
        exact hno t rfl (by simp [hh])
    cases hrest : rest with
    | nil =>
      subst hrest
      rcases h with h | ⟨h1, h2⟩
      · simp at h
      · rw [List.cons_append, List.nil_append, splitLines_cr b h2]
        simp [splitLines_cr ([] : List Char) (by simp), splitLines_nil_eq]
    | cons d t =>
      subst hrest
      have hlast : ('\r' :: d :: t).getLast? = (d :: t).getLast? :=
        List.getLast?_cons_cons
      rw [hlast] at h
      have hdb : ((d :: t) ++ b).head? ≠ some '\n' := by
        simpa using hresthead
      rw [List.cons_append, splitLines_cr _ hdb, splitLines_cr _ hresthead, ih h]
      simp
  | case5 c rest hno hn hr hsplit ih =>
    have hrest : rest = [] := by
      by_contra hne2
      exact splitLinesChars_ne_nil rest hne2 hsplit
    subst hrest
    rcases h with h | ⟨h1, h2⟩
    · simp at h
      exact absurd h hn
    · simp at h1
      exact absurd h1 hr
  | case6 c rest hno hn hr l ls hsplit ih =>
    have hrest : rest ≠ [] := by
      intro hh
      subst hh
      simp [splitLinesChars] at hsplit
    rw [getLast?_cons_of_ne_nil c rest hrest] at h
    rw [List.cons_append, splitLines_other c (rest ++ b) hn hr, ih h, hsplit,
      splitLines_other c rest hn hr, hsplit]
    simp

theorem splitLines_shape (s : List Char) : ∀ l ∈ splitLinesChars s,
    ∃ core term, l = core ++ term ∧ noNlCr core = true ∧
      (term = ['\n'] ∨ term = ['\r', '\n'] ∨ term = ['\r'] ∨ term = []) := by
  induction s using splitLinesChars.induct with
  | case1 => simp [splitLines_nil_eq]
  | case2 rest ih =>
    rw [splitLines_crnl]
    intro l hl
    rcases List.mem_cons.mp hl with rfl | hl
    · exact ⟨[], ['\r', '\n'], rfl, rfl, Or.inr (Or.inl rfl)⟩
    · exact ih l hl
  | case3 rest hno ih =>
    rw [splitLines_nl]
    intro l hl
    rcases List.mem_cons.mp hl with rfl | hl
    · exact ⟨[], ['\n'], rfl, rfl, Or.inl rfl⟩
    · exact ih l hl
  | case4 rest hno hne ih =>
    have hresthead : rest.head? ≠ some '\n' := by
      intro hh
      cases rest with
      | nil => simp at hh
      | cons d t =>
        simp at hh
        exact hno t rfl (by simp [hh])
    rw [splitLines_cr rest hresthead]
    intro l hl
    rcases List.mem_cons.mp hl with rfl | hl
    · exact ⟨[], ['\r'], rfl, rfl, Or.inr (Or.inr (Or.inl rfl))⟩
    · exact ih l hl
  | case5 c rest hno hn hr hsplit ih =>
    rw [splitLines_other c rest hn hr, hsplit]
    intro l hl
    rcases List.mem_cons.mp hl with rfl | hl
    · refine ⟨[c], [], by simp, ?_, Or.inr (Or.inr (Or.inr rfl))⟩
      simp [noNlCr, hn, hr]
    · simp at hl
  | case6 c rest hno hn hr l0 ls hsplit ih =>
    rw [splitLines_other c rest hn hr, hsplit]
    intro l hl
    rcases List.mem_cons.mp hl with rfl | hl
    · obtain ⟨core, term, heq, hcore, hterm⟩ := ih l0 (by simp [hsplit])
      refine ⟨c :: core, term, by simp [heq], ?_, hterm⟩
      simp only [noNlCr, List.all_cons, Bool.and_eq_true]
      refine ⟨by simp [hn, hr], hcore⟩
    · exact ih l (by simp [hsplit, hl])

theorem splitLines_single (x term : List Char) (hx : noNlCr x = true)
    (ht : term = ['\n'] ∨ term = ['\r', '\n'] ∨ term = ['\r']) :
    splitLinesChars (x ++ term) = [x ++ term] := by
  rw [splitLines_merge x term hx]
  rcases ht with rfl | rfl | rfl
  · rw [splitLines_nl]
    simp [splitLines_nil_eq]
  · rw [splitLines_crnl]
    simp [splitLines_nil_eq]
  · rw [splitLines_cr ([] : List Char) (by simp)]
    simp [splitLines_nil_eq]

theorem splitLines_of_noNlCr (x : List Char) (hx : noNlCr x = true)
    (hne : x ≠ []) : splitLinesChars x = [x] := by
  have h := splitLines_merge x [] hx
  rw [List.append_nil] at h
  rw [h, splitLines_nil_eq]
  simp [hne]

theorem isPrefixOf_append_self (p t : List Char) : p.isPrefixOf (p ++ t) = true := by
  induction p with
  | nil => simp [List.isPrefixOf]
  | cons c p' ih => simp [List.isPrefixOf, ih]

theorem head?_append_left (a b : List Char) (ha : a ≠ []) :
    (a ++ b).head? = a.head? := by
  cases a with
  | nil => exact absurd rfl ha
  | cons c t => simp

theorem getLast?_append_right (a b : List Char) (hb : b ≠ []) :
    (a ++ b).getLast? = b.getLast? := by
  induction a with
  | nil => simp
  | cons c a' ih =>
    have hne : a' ++ b ≠ [] := by
      intro h0
      exact hb (List.append_eq_nil.mp h0).2
    rw [List.cons_append, getLast?_cons_of_ne_nil c (a' ++ b) hne, ih]

theorem noNlCr_append (a b : List Char) :
    noNlCr (a ++ b) = (noNlCr a && noNlCr b) := by
  simp [noNlCr, List.all_append]

def lineShape (l : List Char) : Prop :=
  ∃ core term, l = core ++ term ∧ noNlCr core = true ∧
    (term = ['\n'] ∨ term = ['\r', '\n'] ∨ term = ['\r'] ∨ term = [])

theorem indented_lines_aux (I closing : List Char)
    (hIne : I ≠ []) (hInl : noNlCr I = true)
    (hclsplit : splitLinesChars closing = [closing])
    (hclpre : I.isPrefixOf closing = true) :
    ∀ bl : List (List Char), (∀ l ∈ bl, lineShape l) →
      ∀ l ∈ splitLinesChars ((bl.map (fun x => I ++ x)).flatten ++ closing),
        I.isPrefixOf l = true := by
  obtain ⟨c, I', rfl⟩ : ∃ c I', I = c :: I' := by
    cases I with
    | nil => exact absurd rfl hIne
    | cons c I' => exact ⟨c, I', rfl⟩
  have hcnl : c ≠ '\n' ∧ c ≠ '\r' := by
    simp only [noNlCr, List.all_cons, Bool.and_eq_true] at hInl
    have := hInl.1
    constructor <;> (intro hc; subst hc; simp at this)
  have hclne : closing ≠ [] := by
    intro hcl0
    rw [hcl0, splitLines_nil_eq] at hclsplit
    simp at hclsplit
  have hclhead : closing.head? = some c := by
    cases closing with
    | nil => exact absurd rfl hclne
    | cons d t =>
      simp only [List.isPrefixOf, Bool.and_eq_true, beq_iff_eq] at hclpre
      simp [hclpre.1]
  intro bl
  induction bl with
  | nil =>
    intro _ l hl
    simp only [List.map_nil, List.flatten_nil, List.nil_append] at hl
    rw [hclsplit] at hl
    rcases List.mem_singleton.mp hl with rfl
    exact hclpre
  | cons l0 bl' ih =>
    intro hshapes l hl
    obtain ⟨core, term, hl0eq, hcore, hterm⟩ := hshapes l0 (by simp)
    have hsh' : ∀ x ∈ bl', lineShape x := fun x hx => hshapes x (by simp [hx])
    have hrestBne : (bl'.map (fun x => (c :: I') ++ x)).flatten ++ closing ≠ [] := by
      intro h0
      exact hclne (List.append_eq_nil.mp h0).2
    have hrestBhead : ((bl'.map (fun x => (c :: I') ++ x)).flatten ++ closing).head?
        = some c := by
      cases bl' with
      | nil => simpa using hclhead
      | cons l1 bl'' =>
        rw [head?_append_left _ _ (by simp)]
        simp
    simp only [List.map_cons, List.flatten_cons] at hl
    rw [List.append_assoc] at hl
    rcases hterm with rfl | rfl | rfl | rfl
    · -- term = ['\n']
      rw [hl0eq, ← List.append_assoc (c :: I') core ['\n']] at hl
      rw [splitLines_append _ _ (Or.inl (by
        rw [getLast?_append_right _ ['\n'] (by simp)]
        rfl))] at hl
      rw [splitLines_single _ ['\n']
        (by rw [noNlCr_append]; simp [hInl, hcore]) (Or.inl rfl)] at hl
      rcases List.mem_append.mp hl with hl | hl
      · rcases List.mem_singleton.mp hl with rfl
        rw [List.append_assoc]
        exact isPrefixOf_append_self (c :: I') (core ++ ['\n'])
      · exact ih hsh' l hl
    · -- term = ['\r', '\n']
      rw [hl0eq, ← List.append_assoc (c :: I') core ['\r', '\n']] at hl
      rw [splitLines_append _ _ (Or.inl (by
        rw [getLast?_append_right _ ['\r', '\n'] (by simp)]
        rfl))] at hl
      rw [splitLines_single _ ['\r', '\n']
        (by rw [noNlCr_append]; simp [hInl, hcore]) (Or.inr (Or.inl rfl))] at hl
      rcases List.mem_append.mp hl with hl | hl
      · rcases List.mem_singleton.mp hl with rfl
        rw [List.append_assoc]
        exact isPrefixOf_append_self (c :: I') (core ++ ['\r', '\n'])
      · exact ih hsh' l hl
    · -- term = ['\r']
      rw [hl0eq, ← List.append_assoc (c :: I') core ['\r']] at hl
      rw [splitLines_append _ _ (Or.inr ⟨by
          rw [getLast?_append_right _ ['\r'] (by simp)]
          rfl,
        by
          rw [hrestBhead]
          simp [hcnl.1]⟩)] at hl
      rw [splitLines_single _ ['\r']
        (by rw [noNlCr_append]; simp [hInl, hcore]) (Or.inr (Or.inr rfl))] at hl
      rcases List.mem_append.mp hl with hl | hl
      · rcases List.mem_singleton.mp hl with rfl
        rw [List.append_assoc]
        exact isPrefixOf_append_self (c :: I') (core ++ ['\r'])
      · exact ih hsh' l hl
    · -- term = []
      rw [hl0eq, List.append_nil] at hl
      rw [splitLines_merge _ _ (by rw [noNlCr_append]; simp [hInl, hcore])] at hl
      cases hsp : splitLinesChars
          ((bl'.map (fun x => (c :: I') ++ x)).flatten ++ closing) with
      | nil => exact absurd hsp (splitLinesChars_ne_nil _ hrestBne)
      | cons r rs =>
        rw [hsp] at hl
        rcases List.mem_cons.mp hl with rfl | hl
        · rw [List.append_assoc]
          exact isPrefixOf_append_self (c :: I') (core ++ r)
        · exact ih hsh' l (by rw [hsp]; simp [hl])

theorem findSub_cons (c : Char) (t pat : List Char) :
    findSub (c :: t) pat
      = if pat.isPrefixOf (c :: t) then some 0
        else (findSub t pat).map (· + 1) := rfl

theorem findSub_marker (n : Nat) (marker rest2 : List Char)
    (hne : marker ≠ []) (hhead : marker.headD ' ' ≠ ' ') :
    findSub (List.replicate n ' ' ++ marker ++ rest2) marker = some n := by
  induction n with
  | zero =>
    cases marker with
    | nil => exact absurd rfl hne
    | cons c cs =>
      show findSub ((c :: cs) ++ rest2) (c :: cs) = some 0
      unfold findSub
      simp [isPrefixOf_append_self]
  | succ n ih =>
    have hstep : List.replicate (n + 1) ' ' ++ marker ++ rest2
        = ' ' :: (List.replicate n ' ' ++ marker ++ rest2) := by
      simp [List.replicate_succ]
    have hpre : marker.isPrefixOf
        (' ' :: (List.replicate n ' ' ++ marker ++ rest2)) = false := by
      cases marker with
      | nil => exact absurd rfl hne
      | cons c cs =>
        have hc : c ≠ ' ' := by simpa using hhead
        simp [List.isPrefixOf, hc]
    rw [hstep, findSub_cons, hpre]
    simp only [Bool.false_eq_true, if_false]
    rw [ih]
    rfl

theorem take_replicate_append (n : Nat) (t : List Char) :
    (List.replicate n ' ' ++ t).take n = List.replicate n ' ' := by
  induction n with
  | zero => simp
  | succ n ih => simp [List.replicate_succ, ih]

/-- Claim C7: for a matching fence whose opening line carries N spaces
of indentation before the fence marker, every line of the rewritten
fence emitted by the rewriter — the opening marker line, every body
line, and the closing marker line — starts with exactly those N leading
spaces.  The hypotheses record tokenizer facts: the marker is non-empty,
does not start with a space and contains no newline, and the info
string and language tag contain no newline. -/
theorem fence_lines_indented (tok : Token) (lines : List (List Char))
    (lang : List Char) (replace_fn : List Char → List Char) (n : Nat)
    (rest : List Char)
    (hline : (lines.drop tok.map.1).headD []
      = List.replicate n ' ' ++ fenceMarkerOf tok ++ rest)
    (hmark : noNlCr (fenceMarkerOf tok) = true)
    (hhead : (fenceMarkerOf tok).headD ' ' ≠ ' ')
    (hinfo : noNlCr tok.info = true) (hlang : noNlCr lang = true) :
    ∀ l ∈ splitLinesChars (process_fence_token tok lines lang replace_fn),
      (List.replicate n ' ').isPrefixOf l = true := by
  have hmne : fenceMarkerOf tok ≠ [] := by
    intro h0
    rw [h0] at hhead
    simp at hhead
  have hind : extract_fence_indent ((lines.drop tok.map.1).headD [])
      (fenceMarkerOf tok) = List.replicate n ' ' := by
    rw [hline]
    unfold extract_fence_indent
    rw [findSub_marker n (fenceMarkerOf tok) rest hmne hhead]
    show (List.replicate n ' ' ++ fenceMarkerOf tok ++ rest).take n
      = List.replicate n ' '
    rw [List.append_assoc]
    exact take_replicate_append n _
  intro l hl
  by_cases hn : n = 0
  · subst hn
    simp [List.isPrefixOf]
  · have hIne : List.replicate n ' ' ≠ [] := by
      intro h0
      apply hn
      have := congrArg List.length h0
      simpa using this
    have hInl : noNlCr (List.replicate n ' ') = true := by
      simp only [noNlCr, List.all_eq_true]
      intro x hx
      rw [List.eq_of_mem_replicate hx]
      rfl
    have hFnl : noNlCr (if tok.info.isEmpty then lang else tok.info) = true := by
      split <;> assumption
    have hclsplit2 : splitLinesChars
        (List.replicate n ' ' ++ (fenceMarkerOf tok ++ ['\n']))
        = [List.replicate n ' ' ++ (fenceMarkerOf tok ++ ['\n'])] := by
      have h0 := splitLines_single (List.replicate n ' ' ++ fenceMarkerOf tok)
        ['\n'] (by rw [noNlCr_append]; simp [hInl, hmark]) (Or.inl rfl)
      simpa [List.append_assoc] using h0
    have hshapes : ∀ x ∈ (fenceMarkerOf tok
          ++ ((if tok.info.isEmpty then lang else tok.info) ++ ['\n']))
        :: splitLinesChars (rewrittenBody replace_fn tok.content),
        lineShape x := by
      intro x hx
      rcases List.mem_cons.mp hx with rfl | hx
      · refine ⟨fenceMarkerOf tok ++ (if tok.info.isEmpty then lang else tok.info),
          ['\n'], by simp [List.append_assoc], ?_, Or.inl rfl⟩
        simp only [noNlCr_append, hmark, hFnl, Bool.and_self]
      · exact splitLines_shape _ x hx
    have haux := indented_lines_aux (List.replicate n ' ')
      (List.replicate n ' ' ++ (fenceMarkerOf tok ++ ['\n']))
      hIne hInl hclsplit2 (isPrefixOf_append_self _ _)
      ((fenceMarkerOf tok
          ++ ((if tok.info.isEmpty then lang else tok.info) ++ ['\n']))
        :: splitLinesChars (rewrittenBody replace_fn tok.content))
      hshapes l
    apply haux
    simp only [List.map_cons, List.flatten_cons, List.append_assoc]
    simp only [process_fence_token, hind, List.append_assoc] at hl
    exact hl

def witTok : Token :=
  ⟨("fence").toList, ("toml").toList, ("```").toList, (0, 3), ("a\n").toList⟩

def witLines : List (List Char) :=
  [("  ```toml\n").toList, ("  a\n").toList, ("  ```\n").toList]

theorem fence_lines_indented_witness :
    (witLines.drop witTok.map.1).headD []
        = List.replicate 2 ' ' ++ fenceMarkerOf witTok ++ ("toml\n").toList ∧
      ∀ l ∈ splitLinesChars (process_fence_token witTok witLines
          (("toml").toList) (fun b => b)),
        (List.replicate 2 ' ').isPrefixOf l = true :=
  ⟨by decide, fence_lines_indented witTok witLines (("toml").toList)
    (fun b => b) 2 (("toml\n").toList) (by decide) (by decide) (by decide)
    (by decide) (by decide)⟩
